import Mathlib

/-!
Shallow embedding of the systems core of the `whytchat-app` repository
(`src-tauri/src/rag.rs`, `src-tauri/src/main.rs`, `src-tauri/src/llama_install.rs`),
together with theorems settling the specification claims about it.

Conventions used throughout:
* Rust `String` text is embedded as `List Char` (the code chunks by `chars()`).
* Rust `f32` is embedded as `Option ℝ`: `none` models NaN, `some x` a finite
  value with exact real arithmetic (rounding and infinities are not modelled;
  none of the claims depends on them).  Arithmetic on this type propagates NaN.
* Fallible or panicking code is embedded with `Except`/`Option` results.
* External effects (HTTP responses, the embedding server, `serde_json` parsing)
  are inputs to the embedded functions, since that code is not part of the repo.
-/

/-! ### Chunking, `rag.rs` lines 322-335 (`rag_ingest_text`)

The Rust loop is
```
let max = 1200; let overlap = 200;
let mut i = 0;
let t = args.text.replace("\r\n", "\n");
let chars: Vec<char> = t.chars().collect();
while i < chars.len() {
    let end = usize::min(i + max, chars.len());
    chunks.push(chars[i..end]);
    if end == chars.len() { break; }
    i = end.saturating_sub(overlap);
}
```
Each non-final iteration advances `i` by exactly `1000`, so `len + 1` steps of
fuel always suffice; the fuel-based recursion keeps the definition reducible.
-/

def chunkMax : ℕ := 1200

def chunkOv : ℕ := 200

/-- `text.replace("\r\n", "\n")`: left-to-right, non-overlapping replacement. -/
def crlf : List Char → List Char
  | [] => []
  | [c] => [c]
  | c1 :: c2 :: rest =>
    if c1 = '\r' ∧ c2 = '\n' then '\n' :: crlf rest else c1 :: crlf (c2 :: rest)

/-- The `(start, end)` index pairs produced by the chunking loop on a text of
length `n`, starting at offset `i`. -/
def chunkSpansAux (n : ℕ) : ℕ → ℕ → List (ℕ × ℕ)
  | 0, _ => []
  | fuel + 1, i =>
    if i < n then
      let e := min (i + chunkMax) n
      if e = n then [(i, e)] else (i, e) :: chunkSpansAux n fuel (e - chunkOv)
    else []

def chunkSpans (n : ℕ) : List (ℕ × ℕ) := chunkSpansAux n (n + 1) 0

/-- The chunk contents produced by the loop (`chars[i..end]` pushed each turn). -/
def ragChunksAux (cs : List Char) : ℕ → ℕ → List (List Char)
  | 0, _ => []
  | fuel + 1, i =>
    if i < cs.length then
      let e := min (i + chunkMax) cs.length
      let s := (cs.drop i).take (e - i)
      if e = cs.length then [s] else s :: ragChunksAux cs fuel (e - chunkOv)
    else []

/-- The chunk list `rag_ingest_text` derives from its input text: CRLF
normalisation followed by the windowed chunking loop. -/
def rag_ingest_chunks (text : List Char) : List (List Char) :=
  ragChunksAux (crlf text) ((crlf text).length + 1) 0

/-! ### Ingestion persistence, `rag.rs` lines 361-372

The per-dataset files `chunks.json` / `embeddings.json`; `none` = file absent.
The embedding server's successful response payload (`payload.data`, one vector
per input) is an input.  Embedding components are irrelevant to the persistence
logic and are taken in `ℚ` so the model stays executable. -/

structure DatasetFiles where
  chunksFile : Option (List (List Char))
  embedsFile : Option (List (List ℚ))
deriving DecidableEq

/-- `rag_ingest_text` after a successful embeddings call: the size-mismatch
check (line 362) and the two `fs::write` calls (lines 365-370).  Returns the
dataset files afterwards and the command result (`IngestResult.chunks`). -/
def rag_ingest_text (text : List Char) (respData : List (List ℚ))
    (files : DatasetFiles) : DatasetFiles × Except String ℕ :=
  let chunks := rag_ingest_chunks text
  if respData.length ≠ chunks.length then
    (files, Except.error "embeddings size mismatch")
  else
    (⟨some chunks, some respData⟩, Except.ok chunks.length)

/-! ### The `f32` model and cosine ranking, `rag.rs` lines 404-447 -/

/-- Model of `f32`: `none` is NaN, `some x` a finite value. -/
def FR : Type := Option ℝ

def fAdd (a b : FR) : FR := Option.map₂ (· + ·) a b

def fMul (a b : FR) : FR := Option.map₂ (· * ·) a b

noncomputable def fSqrt (a : FR) : FR := Option.map Real.sqrt a

/-- `x / y`: NaN operands give NaN; a zero divisor is modelled as NaN (the code
only divides by `sqrt(na)*sqrt(nb)` after checking `na`, `nb` nonzero, so this
case is unreachable there). -/
noncomputable def fDiv (a b : FR) : FR :=
  match a, b with
  | some x, some y => if y = 0 then none else some (x / y)
  | _, _ => none

/-- `v == 0f32`; NaN compares unequal to zero. -/
noncomputable def fIsZero (a : FR) : Bool :=
  match a with
  | some x => decide (x = 0)
  | none => false

/-- `f32::is_nan`. -/
def fIsNan (a : FR) : Bool := a.isNone

/-- `f32::partial_cmp`: `none` when either side is NaN. -/
noncomputable def fPCmp (a b : FR) : Option Ordering :=
  match a, b with
  | some x, some y =>
    some (if x < y then Ordering.lt else if y < x then Ordering.gt else Ordering.eq)
  | _, _ => none

/-- `cosine` (`rag.rs` lines 431-436): fold over the first
`min (a.length) (b.length)` index pairs, zero-norm guard, then
`dot / (na.sqrt() * nb.sqrt())`. -/
noncomputable def cosine (a b : List FR) : FR :=
  let ps := a.zip b
  let dot := ps.foldl (fun acc p => fAdd acc (fMul p.1 p.2)) (some 0)
  let na := ps.foldl (fun acc p => fAdd acc (fMul p.1 p.1)) (some 0)
  let nb := ps.foldl (fun acc p => fAdd acc (fMul p.2 p.2)) (some 0)
  if fIsZero na || fIsZero nb then some 0 else fDiv dot (fMul (fSqrt na) (fSqrt nb))

structure RagHit where
  text : List Char
  score : FR

/-- The comparator passed to `pairs.sort_by` at line 444:
`b.1.partial_cmp(&a.1).unwrap_or(Equal)`; `rankRel p q` holds when the
comparator orders `p` at or before `q` (i.e. does not return `Greater`). -/
noncomputable def rankRel (p q : ℕ × FR) : Prop :=
  ((fPCmp q.2 p.2).getD Ordering.eq) ≠ Ordering.gt

noncomputable instance rankRelDec : DecidableRel rankRel := fun p q => by
  unfold rankRel; infer_instance

/-- The final `.map(|(i, score)| RagHit with text chunks[i], score)` of line
445: `chunks[i]` is an unchecked index, so the whole mapping is `none`
(a panic) as soon as one selected index is out of bounds. -/
def lookupHits (chunks : List (List Char)) : List (ℕ × FR) → Option (List RagHit)
  | [] => some []
  | p :: rest =>
    match chunks.get? p.1 with
    | some t => (lookupHits chunks rest).map (fun hs => RagHit.mk t p.2 :: hs)
    | none => none

/-- Lines 438-445 of `rag_query`: enumerate scores, drop NaN, stable sort by
descending score, take `k`, and read `chunks[i]` for each survivor.  Rust's
`sort_by` is a stable sort, which on a list with pairwise-distinct indices is
reproduced exactly by insertion sort under the same comparator. -/
noncomputable def ragRank (scores : List FR) (chunks : List (List Char)) (k : ℕ) :
    Option (List RagHit) :=
  let pairs := scores.enum.filter (fun p => !(fIsNan p.2))
  let sorted := List.insertionSort rankRel pairs
  lookupHits chunks (sorted.take k)

/-- `rag_query` (lines 404-447) after loading: missing files give `Ok(vec![])`,
empty embeddings give `Ok(vec![])`, otherwise every stored embedding is scored
against the query embedding and ranked.  The query embedding comes from the
server and is an input; `none` models the `chunks[i]` panic. -/
noncomputable def rag_query (chunksFile : Option (List (List Char)))
    (embedsFile : Option (List (List FR))) (qemb : List FR) (k : ℕ) :
    Option (List RagHit) :=
  match chunksFile, embedsFile with
  | some chunks, some embeds =>
    if embeds.isEmpty then some []
    else ragRank (embeds.map (fun e => cosine qemb e)) chunks k
  | _, _ => some []

/-! Specification-side definitions for the ranking claim (from the spec's
words, to be compared with the code-derived pipeline): "Sort remaining
(index, score) pairs by descending score, stable on ties (original ingestion
order), and return the top k chunk texts with their scores." -/

/-- Spec-side value of a non-NaN score. -/
def fVal (a : FR) : ℝ := a.getD 0

/-- Spec-side order: strictly greater score first, ties broken by the original
(ingestion) index. -/
noncomputable def specRel (p q : ℕ × FR) : Prop :=
  fVal q.2 < fVal p.2 ∨ (fVal p.2 = fVal q.2 ∧ p.1 ≤ q.1)

noncomputable instance specRelDec : DecidableRel specRel := fun p q => by
  unfold specRel; infer_instance

/-- Spec-side ranking: discard NaN scores, sort by descending score with ties
in ingestion order, take the top `k`, return chunk texts with scores. -/
noncomputable def specTopK (scores : List FR) (chunks : List (List Char)) (k : ℕ) :
    Option (List RagHit) :=
  let pairs := scores.enum.filter (fun p => !(fIsNan p.2))
  let sorted := List.insertionSort specRel pairs
  lookupHits chunks (sorted.take k)

/-- Spec-side dot product of two equal-length finite vectors. -/
def dotS (a b : List ℝ) : ℝ := (List.zipWith (· * ·) a b).sum

/-- Spec-side Euclidean norm `|a|`. -/
noncomputable def normS (a : List ℝ) : ℝ := Real.sqrt ((a.map fun x => x * x).sum)

/-! ### The SSE stream decoder, `main.rs` lines 897-968 (`generate_text`)

The decoder's local state (`accumulated`, emitted chunk events, `finished`);
the line buffer is threaded separately, exactly like the Rust locals.  JSON
parsing (`serde_json::from_str::<SSEChunk>`) is external code and is passed in
as a function `parse`; `none` models a parse error. -/

structure SSEDelta where
  content : Option (List Char)
deriving DecidableEq

structure SSEChoice where
  delta : SSEDelta
  finishReason : Option (List Char)
deriving DecidableEq

structure SSEChunk where
  choices : List SSEChoice
deriving DecidableEq

structure LineState where
  accumulated : List Char
  events : List (List Char)
  finished : Bool
deriving DecidableEq

def SSEParse : Type := List Char → Option SSEChunk

def dataPfx : List Char := "data: ".toList

def doneLit : List Char := "[DONE]".toList

def isWsChar (c : Char) : Bool := c = ' ' || c = '\t' || c = '\r' || c = '\n'

/-- `str::trim` (restricted to ASCII whitespace, which is all that occurs in
this protocol). -/
def trimChars (l : List Char) : List Char :=
  ((l.dropWhile isWsChar).reverse.dropWhile isWsChar).reverse

/-- `line.strip_prefix("data: ")`. -/
def stripDataPfx (l : List Char) : Option (List Char) :=
  if dataPfx.isPrefixOf l then some (l.drop dataPfx.length) else none

/-- Lines 922-960: handle one `data: ` payload.  Returns the updated state and
whether the line loop `break`s (`[DONE]` or a terminal finish reason). -/
def procData (parse : SSEParse) (st : LineState) (json : List Char) :
    LineState × Bool :=
  if json = doneLit then ({ st with finished := true }, true)
  else
    match parse json with
    | none => (st, false)
    | some sse =>
      match sse.choices.head? with
      | none => (st, false)
      | some choice =>
        let st1 :=
          match choice.delta.content with
          | some content =>
            if content = [] then st
            else { st with accumulated := st.accumulated ++ content,
                           events := st.events ++ [content] }
          | none => st
        match choice.finishReason with
        | some r =>
          if r = "stop".toList ∨ r = "length".toList then
            ({ st1 with finished := true }, true)
          else (st1, false)
        | none => (st1, false)

/-- Lines 913-961: trim the raw line, skip blanks and non-`data:` lines,
process a data payload. -/
def procLine (parse : SSEParse) (st : LineState) (raw : List Char) :
    LineState × Bool :=
  let line := trimChars raw
  if line = [] then (st, false)
  else
    match stripDataPfx line with
    | some json => procData parse st json
    | none => (st, false)

/-- Split the buffer at its first newline (`buffer.find('\n')`,
`buffer[..pos]` / `buffer[pos+1..]`). -/
def splitNl : List Char → Option (List Char × List Char)
  | [] => none
  | c :: rest =>
    if c = '\n' then some ([], rest)
    else (splitNl rest).map (fun p => (c :: p.1, p.2))

/-- The inner `while let Some(pos) = buffer.find('\n')` loop (lines 912-962);
each iteration removes at least one character from the buffer, so
`buffer.length + 1` fuel always suffices. -/
def drainLines (parse : SSEParse) : ℕ → List Char → LineState → List Char × LineState
  | 0, buf, st => (buf, st)
  | fuel + 1, buf, st =>
    match splitNl buf with
    | none => (buf, st)
    | some (line, rest) =>
      let r := procLine parse st line
      if r.2 then (rest, r.1) else drainLines parse fuel rest r.1

/-- One outer-loop iteration (lines 905-962): append the received bytes to the
buffer and process complete lines. -/
def feedChunk (parse : SSEParse) (buf : List Char) (st : LineState)
    (chunk : List Char) : List Char × LineState :=
  drainLines parse ((buf ++ chunk).length + 1) (buf ++ chunk) st

/-- The outer `while let Some(chunk) = stream.next()` loop with the
`if finished { break }` check at line 965. -/
def procStream (parse : SSEParse) : List (List Char) → List Char → LineState →
    List Char × LineState
  | [], buf, st => (buf, st)
  | c :: rest, buf, st =>
    let r := feedChunk parse buf st c
    if r.2.finished then r else procStream parse rest r.1 r.2

/-- The whole decode of a received byte-chunk sequence, from the initial empty
buffer/accumulator state. -/
def generate_text_decode (parse : SSEParse) (chunks : List (List Char)) : LineState :=
  (procStream parse chunks [] ⟨[], [], false⟩).2

/-- A raw `data: ` line carrying the given payload. -/
def dataLine (payload : List Char) : List Char := dataPfx ++ payload

/-- Join SSE lines into a single network read, each line newline-terminated. -/
def linesJoin (lines : List (List Char)) : List Char :=
  (lines.map (fun l => l ++ ['\n'])).flatten

/-- Spec-side list of the content fragments present in a record's choices
("zero or more choices, each with an optional content fragment"). -/
def specFragments (sse : SSEChunk) : List (List Char) :=
  sse.choices.filterMap (fun c => c.delta.content)

/-- What the code actually appends for one record: the first choice's content
fragment, if any. -/
def firstFrag (sse : SSEChunk) : List Char :=
  match sse.choices.head? with
  | some choice => choice.delta.content.getD []
  | none => []

/-- A well-formed delta record with two choices carrying fragments `"a"`,
`"b"`, used to separate the code from the all-choices reading of the spec. -/
def twoChoiceRec : SSEChunk :=
  ⟨[⟨⟨some ['a']⟩, none⟩, ⟨⟨some ['b']⟩, none⟩]⟩

/-- A parse function under which every payload decodes to `twoChoiceRec`. -/
def twoChoiceParse : SSEParse := fun _ => some twoChoiceRec

/-! ### Process supervisor, sequential path, `llama_install.rs` lines 301-488
(`start_server_process`)

Filesystem facts, spawn success, and whether the child dies inside the grace
window are inputs; the stored handle is the `LLAMA_PROCESS` content, as a pid. -/

def graceMillis : ℕ := 1500

structure StartArgs where
  /-- Stored `LLAMA_PROCESS` at entry (pid of a previously spawned child). -/
  handle : Option ℕ
  /-- `child.try_wait()` on the stored child returned `Ok(None)` (alive); the
  `Ok(Some)` and `Err` branches both clear the handle and continue. -/
  liveAtCheck : Bool
  binaryExists : Bool
  modelExists : Bool
  modelPath : String
  spawnOk : Bool
  spawnErr : String
  /-- The spawned child exits within the 1.5 s grace window. -/
  exitsDuringGrace : Bool

/-- Lines 336-488: the path after the already-running check: binary and model
checks, spawn, store, grace wait, grace re-check.  Returns the stored handle
afterwards and the command result. -/
def startAfterCheck (a : StartArgs) (freshPid : ℕ) : Option ℕ × Except String ℕ :=
  if ¬a.binaryExists then
    (none, Except.error "llama-server binary not found. Please install it first.")
  else if ¬a.modelExists then
    (none, Except.error ("Model file not found: " ++ a.modelPath))
  else if ¬a.spawnOk then
    (none, Except.error ("Failed to start llama-server: " ++ a.spawnErr))
  else if a.exitsDuringGrace then
    (none,
     Except.error "llama-server process exited immediately. Please verify dependencies and DLLs.")
  else (some freshPid, Except.ok freshPid)

/-- Lines 301-488, sequential behaviour of one `start_server_process` call:
the already-running check (311-334), then `startAfterCheck`. -/
def start_server_process (a : StartArgs) (freshPid : ℕ) : Option ℕ × Except String ℕ :=
  match a.handle with
  | some p => if a.liveAtCheck then (some p, Except.ok p) else startAfterCheck a freshPid
  | none => startAfterCheck a freshPid

/-! ### Process supervisor, two concurrent starts, `llama_install.rs`

The mutex protecting `LLAMA_PROCESS` is released at line 334 after the
liveness check; the spawn (line 425) runs outside any lock, and the store
(454-458) and grace re-check (463-483) each re-acquire it.  Each lock-to-lock
region is one atomic step here; regions of the two threads may interleave
arbitrarily.  Both calls run on the happy path (binary and model exist, spawn
succeeds, no child ever exits), which none of the atomic steps depends on.
`live` is the list of spawned-and-never-killed llama-server processes;
dropping an overwritten `Child` does not kill its process. -/

inductive Pc where
  | check
  | spawn
  | store
  | grace
  | done (result : Option ℕ)
deriving DecidableEq

structure ThreadSt where
  pc : Pc
  mypid : ℕ
deriving DecidableEq

structure SupSys where
  handle : Option ℕ
  live : List ℕ
  nextPid : ℕ
  t0 : ThreadSt
  t1 : ThreadSt
deriving DecidableEq

/-- One atomic region of `start_server_process` for one thread. -/
def stepOn (handle : Option ℕ) (live : List ℕ) (nextPid : ℕ) (t : ThreadSt) :
    Option ℕ × List ℕ × ℕ × ThreadSt :=
  match t.pc with
  | Pc.check =>
    match handle with
    | some p =>
      if p ∈ live then (handle, live, nextPid, ⟨Pc.done (some p), t.mypid⟩)
      else (none, live, nextPid, ⟨Pc.spawn, t.mypid⟩)
    | none => (handle, live, nextPid, ⟨Pc.spawn, t.mypid⟩)
  | Pc.spawn => (handle, live ++ [nextPid], nextPid + 1, ⟨Pc.store, nextPid⟩)
  | Pc.store => (some t.mypid, live, nextPid, ⟨Pc.grace, t.mypid⟩)
  | Pc.grace =>
    match handle with
    | some p =>
      if p ∈ live then (handle, live, nextPid, ⟨Pc.done (some t.mypid), t.mypid⟩)
      else (none, live, nextPid, ⟨Pc.done none, t.mypid⟩)
    | none => (handle, live, nextPid, ⟨Pc.done (some t.mypid), t.mypid⟩)
  | Pc.done _ => (handle, live, nextPid, t)

/-- Run one scheduler step: `false` steps thread 0, `true` steps thread 1. -/
def supStep (s : SupSys) (which : Bool) : SupSys :=
  if which then
    let r := stepOn s.handle s.live s.nextPid s.t1
    ⟨r.1, r.2.1, r.2.2.1, s.t0, r.2.2.2⟩
  else
    let r := stepOn s.handle s.live s.nextPid s.t0
    ⟨r.1, r.2.1, r.2.2.1, r.2.2.2, s.t1⟩

def supRun (sched : List Bool) (s : SupSys) : SupSys := sched.foldl supStep s

/-- No process tracked, no process live, both threads about to start. -/
def supInit : SupSys := ⟨none, [], 1, ⟨Pc.check, 0⟩, ⟨Pc.check, 0⟩⟩

/-! ### Download manager, `main.rs` lines 398-489 (`download_pack` task)

The filesystem holds the partial file (`<filename>.part`) and the final
artifact; bytes are `ℕ`.  The HTTP response (status, content length, body
chunks, transport errors) and the cancel-flag readings are inputs.  File
writes are modelled as succeeding (their error branch is not under test in any
claim). -/

structure DlFs where
  part : Option (List ℕ)
  final : Option (List ℕ)
deriving DecidableEq

structure DlEntry where
  total : Option ℕ
  written : ℕ
  status : String
  errMsg : Option String
deriving DecidableEq

structure DlResp where
  /-- `send()` then `error_for_status()` succeeded. -/
  ok : Bool
  errText : String
  /-- `resp.content_length()`. -/
  contentLength : Option ℕ
  /-- The byte chunks of `resp.bytes_stream()`; `Except.error` is a transport
  error surfaced for a chunk. -/
  chunks : List (Except String (List ℕ))

/-- Length of the existing partial file (`afs::metadata(&part_path)`), 0 when
absent. -/
def resumeLen (fs : DlFs) : ℕ :=
  match fs.part with
  | some c => c.length
  | none => 0

/-- The `Range` header start put on the request, if any (lines 408-411). -/
def rangeHdr (resume : ℕ) : Option ℕ := if resume > 0 then some resume else none

/-- Lines 445-489: the streaming write loop, then flush + rename + `done`.
`cancel n` is the cancel flag as read at the check preceding chunk `n`.  The
in-progress file contents live at `fs.part` (append mode writes there). -/
def dlLoop (cancel : ℕ → Bool) :
    List (Except String (List ℕ)) → ℕ → DlFs → DlEntry → DlFs × DlEntry
  | [], _, fs, e =>
    ({ part := none, final := some (fs.part.getD []) }, { e with status := "done" })
  | chunk :: rest, n, fs, e =>
    if cancel n then
      ({ fs with part := none }, { e with status := "canceled" })
    else
      match chunk with
      | Except.ok data =>
        dlLoop cancel rest (n + 1) { fs with part := some (fs.part.getD [] ++ data) }
          { e with written := e.written + data.length }
      | Except.error msg =>
        (fs, { e with status := "error", errMsg := some msg })

/-- The spawned transfer task of `download_pack` (lines 398-489): resume
probe, range header, response status check, total/written bookkeeping, file
open (append when resuming, truncating create otherwise), then the write
loop.  Returns the range header used, the resulting filesystem, and the final
download entry. -/
def download_task (fs : DlFs) (resp : DlResp) (cancel : ℕ → Bool) (e0 : DlEntry) :
    Option ℕ × DlFs × DlEntry :=
  let resume := resumeLen fs
  let range := rangeHdr resume
  if ¬resp.ok then
    (range, fs, { e0 with status := "error", errMsg := some resp.errText })
  else
    let total := resp.contentLength.map (· + resume)
    let e1 := { e0 with total := total, written := resume }
    let fs1 := if resume > 0 then fs else { fs with part := some [] }
    let r := dlLoop cancel resp.chunks 0 fs1 e1
    (range, r.1, r.2)

/-! ## Theorems -/

/-! ### C1: chunk coverage, sizes, overlap -/

lemma chunkMax_eq : chunkMax = 1200 := rfl

lemma chunkOv_eq : chunkOv = 200 := rfl

lemma chunkSpansAux_succ_done {n i : ℕ} (fuel : ℕ) (h : i < n) (he : n ≤ i + chunkMax) :
    chunkSpansAux n (fuel + 1) i = [(i, n)] := by
  rw [chunkSpansAux]
  simp [h, min_eq_right he]

lemma chunkSpansAux_succ_more {n i : ℕ} (fuel : ℕ) (h : i < n) (he : i + chunkMax < n) :
    chunkSpansAux n (fuel + 1) i =
      (i, i + chunkMax) :: chunkSpansAux n fuel (i + chunkMax - chunkOv) := by
  rw [chunkSpansAux]
  simp [h, min_eq_left he.le, Nat.ne_of_lt he]

lemma chunkSpansAux_stop {n i : ℕ} (fuel : ℕ) (h : ¬i < n) :
    chunkSpansAux n (fuel + 1) i = [] := by
  rw [chunkSpansAux]; simp [h]

lemma chunkSpansAux_cover (n : ℕ) : ∀ fuel i, n < fuel + i →
    ∀ j, i ≤ j → j < n → ∃ p ∈ chunkSpansAux n fuel i, p.1 ≤ j ∧ j < p.2 := by
  intro fuel
  induction fuel with
  | zero => intro i hfi j hij hjn; omega
  | succ fuel ih =>
    intro i hfi j hij hjn
    have hin : i < n := lt_of_le_of_lt hij hjn
    rcases le_or_lt n (i + chunkMax) with he | he
    · rw [chunkSpansAux_succ_done fuel hin he]
      exact ⟨(i, n), by simp, hij, hjn⟩
    · rw [chunkSpansAux_succ_more fuel hin he]
      by_cases hj : j < i + chunkMax
      · exact ⟨(i, i + chunkMax), by simp, hij, hj⟩
      · have hM := chunkMax_eq; have hO := chunkOv_eq
        obtain ⟨p, hp, h1, h2⟩ :=
          ih (i + chunkMax - chunkOv) (by omega) j (by omega) hjn
        exact ⟨p, by simp [hp], h1, h2⟩

lemma chunkSpansAux_shape (n : ℕ) : ∀ fuel i, ∀ p ∈ chunkSpansAux n fuel i,
    i ≤ p.1 ∧ p.1 < n ∧ p.2 = min (p.1 + chunkMax) n := by
  intro fuel
  induction fuel with
  | zero => intro i p hp; simp [chunkSpansAux] at hp
  | succ fuel ih =>
    intro i p hp
    by_cases hin : i < n
    · rcases le_or_lt n (i + chunkMax) with he | he
      · rw [chunkSpansAux_succ_done fuel hin he] at hp
        simp only [List.mem_singleton] at hp
        subst hp
        exact ⟨le_refl _, hin, (min_eq_right he).symm⟩
      · rw [chunkSpansAux_succ_more fuel hin he] at hp
        simp only [List.mem_cons] at hp
        rcases hp with hp | hp
        · subst hp
          exact ⟨le_refl _, hin, (min_eq_left he.le).symm⟩
        · obtain ⟨h1, h2, h3⟩ := ih _ p hp
          have hM := chunkMax_eq; have hO := chunkOv_eq
          exact ⟨by omega, h2, h3⟩
    · rw [chunkSpansAux_stop fuel hin] at hp
      simp at hp

lemma chunkSpansAux_head (n fuel i : ℕ) (hf : 0 < fuel) (hin : i < n) :
    (chunkSpansAux n fuel i).head?.map Prod.fst = some i := by
  obtain ⟨fuel, rfl⟩ : ∃ f, fuel = f + 1 := ⟨fuel - 1, by omega⟩
  rcases le_or_lt n (i + chunkMax) with he | he
  · rw [chunkSpansAux_succ_done fuel hin he]; rfl
  · rw [chunkSpansAux_succ_more fuel hin he]; rfl

lemma chunkSpansAux_chain (n : ℕ) : ∀ fuel i, (chunkSpansAux n fuel i).Chain'
    (fun p q => p.2 = p.1 + chunkMax ∧ q.1 + chunkOv = p.2) := by
  intro fuel
  induction fuel with
  | zero => intro i; simp [chunkSpansAux]
  | succ fuel ih =>
    intro i
    by_cases hin : i < n
    · rcases le_or_lt n (i + chunkMax) with he | he
      · rw [chunkSpansAux_succ_done fuel hin he]; simp
      · rw [chunkSpansAux_succ_more fuel hin he]
        rw [List.chain'_cons']
        refine ⟨?_, ih _⟩
        intro q hq
        have hM := chunkMax_eq; have hO := chunkOv_eq
        rcases Nat.eq_zero_or_pos fuel with hf | hf
        · subst hf; simp [chunkSpansAux] at hq
        · have hi' : i + chunkMax - chunkOv < n := by omega
          have hh := chunkSpansAux_head n fuel (i + chunkMax - chunkOv) hf hi'
          rw [hq] at hh
          simp at hh
          exact ⟨rfl, by omega⟩
    · rw [chunkSpansAux_stop fuel hin]; simp

lemma chunkSpansAux_last (n : ℕ) : ∀ fuel i, n < fuel + i → i < n →
    (chunkSpansAux n fuel i).getLast?.map Prod.snd = some n := by
  intro fuel
  induction fuel with
  | zero => intro i h1 h2; omega
  | succ fuel ih =>
    intro i hfi hin
    rcases le_or_lt n (i + chunkMax) with he | he
    · rw [chunkSpansAux_succ_done fuel hin he]; rfl
    · rw [chunkSpansAux_succ_more fuel hin he]
      have hM := chunkMax_eq; have hO := chunkOv_eq
      have hi' : i + chunkMax - chunkOv < n := by omega
      have htl := ih (i + chunkMax - chunkOv) (by omega) hi'
      cases htail : chunkSpansAux n fuel (i + chunkMax - chunkOv) with
      | nil => rw [htail] at htl; simp at htl
      | cons a l =>
        rw [htail] at htl
        rw [List.getLast?_cons_cons]
        exact htl

lemma ragChunksAux_eq_spans (cs : List Char) : ∀ fuel i,
    ragChunksAux cs fuel i = (chunkSpansAux cs.length fuel i).map
      (fun p => (cs.drop p.1).take (p.2 - p.1)) := by
  intro fuel
  induction fuel with
  | zero => intro i; simp [ragChunksAux, chunkSpansAux]
  | succ fuel ih =>
    intro i
    rw [ragChunksAux, chunkSpansAux]
    by_cases hin : i < cs.length
    · simp only [hin, if_true]
      by_cases he : min (i + chunkMax) cs.length = cs.length <;>
        simp [he, ih]
    · simp [hin]

lemma crlf_no_cr : ∀ l : List Char, '\r' ∉ l → crlf l = l := by
  intro l
  induction l using crlf.induct with
  | case1 => simp [crlf]
  | case2 c => simp [crlf]
  | case3 c1 c2 rest h ih =>
    intro hmem
    rcases h with ⟨h1, _⟩
    simp [h1] at hmem
  | case4 c1 c2 rest h ih =>
    intro hmem
    rw [crlf, if_neg h]
    simp only [List.mem_cons, not_or] at hmem
    rw [ih (by simp [List.mem_cons]; tauto)]

set_option maxRecDepth 10000

lemma chunkSpans_1300 : chunkSpans 1300 = [(0, 1200), (1000, 1300)] := by decide

lemma rag_ingest_chunks_1300 :
    rag_ingest_chunks (List.replicate 1300 'A') =
      [List.replicate 1200 'A', List.replicate 300 'A'] := by
  unfold rag_ingest_chunks
  have hnr : '\r' ∉ List.replicate 1300 'A' := by
    intro hmem
    exact absurd (List.mem_replicate.mp hmem).2 (by decide)
  rw [crlf_no_cr _ hnr]
  rw [ragChunksAux_eq_spans]
  have h13 : (List.replicate 1300 'A').length = 1300 := by
    rw [List.length_replicate]
  rw [h13]
  have hsp : chunkSpansAux 1300 (1300 + 1) 0 = [(0, 1200), (1000, 1300)] :=
    chunkSpans_1300
  rw [hsp]
  simp only [List.map_cons, List.map_nil]
  rw [List.drop_zero, List.drop_replicate, List.take_replicate,
    List.take_replicate]
  norm_num [min_def]

/-- C1: for every input text (after CRLF unification), the chunking of
`rag_ingest_text` produces exactly the windows described by `chunkSpans`:
every character position is covered by some chunk span, every chunk has at
most 1200 characters, every span ends at `min (start + 1200) len` (so each
non-final chunk is exactly 1200 characters, as the chain conjunct states),
consecutive spans overlap by exactly 200 characters (`next.start + 200 =
prev.end`), the first chunk starts at 0 and the last chunk ends exactly at the
end of the text; and a 1300-character input yields exactly the two chunks
`[0, 1200)` and `[1000, 1300)`. -/
theorem c1_chunking (text : List Char) :
    rag_ingest_chunks text =
      (chunkSpans (crlf text).length).map
        (fun p => ((crlf text).drop p.1).take (p.2 - p.1))
    ∧ (∀ j, j < (crlf text).length →
        ∃ p ∈ chunkSpans (crlf text).length, p.1 ≤ j ∧ j < p.2)
    ∧ (∀ c ∈ rag_ingest_chunks text, c.length ≤ 1200)
    ∧ (∀ p ∈ chunkSpans (crlf text).length,
        p.2 = min (p.1 + 1200) (crlf text).length)
    ∧ (chunkSpans (crlf text).length).Chain'
        (fun p q => p.2 = p.1 + 1200 ∧ q.1 + 200 = p.2)
    ∧ (0 < (crlf text).length →
        (chunkSpans (crlf text).length).head?.map Prod.fst = some 0 ∧
        (chunkSpans (crlf text).length).getLast?.map Prod.snd =
          some (crlf text).length)
    ∧ chunkSpans 1300 = [(0, 1200), (1000, 1300)]
    ∧ rag_ingest_chunks (List.replicate 1300 'A') =
        [List.replicate 1200 'A', List.replicate 300 'A'] := by
  have hmap : rag_ingest_chunks text =
      (chunkSpans (crlf text).length).map
        (fun p => ((crlf text).drop p.1).take (p.2 - p.1)) := by
    unfold rag_ingest_chunks chunkSpans
    exact ragChunksAux_eq_spans _ _ _
  refine ⟨hmap, ?_, ?_, ?_, ?_, ?_, chunkSpans_1300, rag_ingest_chunks_1300⟩
  · intro j hj
    exact chunkSpansAux_cover _ _ 0 (by omega) j (Nat.zero_le _) hj
  · intro c hc
    rw [hmap] at hc
    obtain ⟨p, hp, rfl⟩ := List.mem_map.mp hc
    have hshape := chunkSpansAux_shape (crlf text).length _ 0 p hp
    have h2 : p.2 ≤ p.1 + chunkMax := hshape.2.2 ▸ min_le_left _ _
    have hM := chunkMax_eq
    calc (((crlf text).drop p.1).take (p.2 - p.1)).length
        ≤ p.2 - p.1 := List.length_take_le _ _
      _ ≤ 1200 := by omega
  · intro p hp
    have := (chunkSpansAux_shape (crlf text).length _ 0 p hp).2.2
    rwa [chunkMax_eq] at this
  · simpa [chunkMax_eq, chunkOv_eq] using
      chunkSpansAux_chain (crlf text).length ((crlf text).length + 1) 0
  · intro h0
    exact ⟨chunkSpansAux_head _ _ 0 (by omega) h0,
           chunkSpansAux_last _ _ 0 (by omega) h0⟩

/-- Witness for C1 at the concrete text `"ab"`: character 1 is covered. -/
theorem c1_chunking_witness :
    1 < (crlf ['a', 'b']).length ∧
      ∃ p ∈ chunkSpans (crlf ['a', 'b']).length, p.1 ≤ 1 ∧ 1 < p.2 :=
  ⟨by decide, (c1_chunking ['a', 'b']).2.1 1 (by decide)⟩

/-! ### C5: embeddings size mismatch aborts ingestion without persisting -/

/-- C5: if the embedding server returns a different number of vectors than
there are chunks, `rag_ingest_text` fails with the embeddings-size-mismatch
error and the dataset files are untouched; and any successful ingestion
persists equally long chunk and embedding lists (and reports that length). -/
theorem c5_size_mismatch (text : List Char) (respData : List (List ℚ))
    (files : DatasetFiles) :
    (respData.length ≠ (rag_ingest_chunks text).length →
      rag_ingest_text text respData files =
        (files, Except.error "embeddings size mismatch"))
    ∧ (∀ files' n, rag_ingest_text text respData files = (files', Except.ok n) →
        ∃ cs es, files'.chunksFile = some cs ∧ files'.embedsFile = some es ∧
          cs.length = es.length ∧ n = cs.length) := by
  constructor
  · intro h
    unfold rag_ingest_text
    simp [h]
  · intro files' n h
    unfold rag_ingest_text at h
    by_cases hm : respData.length ≠ (rag_ingest_chunks text).length
    · simp [hm] at h
    · rw [if_neg hm] at h
      push_neg at hm
      obtain ⟨h1, h2⟩ := Prod.mk.injEq .. ▸ h
      refine ⟨rag_ingest_chunks text, respData, ?_, ?_, hm.symm, ?_⟩
      · rw [← h1]
      · rw [← h1]
      · injection h2 with h3
        exact h3.symm

/-- Witness for C5: a 2-character text yields one chunk, so an empty
embeddings payload is a mismatch and nothing is persisted. -/
theorem c5_size_mismatch_witness :
    ([] : List (List ℚ)).length ≠ (rag_ingest_chunks ['a', 'b']).length ∧
      rag_ingest_text ['a', 'b'] [] ⟨none, none⟩ =
        (⟨none, none⟩, Except.error "embeddings size mismatch") :=
  ⟨by decide, (c5_size_mismatch ['a', 'b'] [] ⟨none, none⟩).1 (by decide)⟩

/-! ### C6: the start-twice race -/

/-- C6 (refuting the claim, exhibiting the code bug): interleaving two
`start_server_process` calls so that both liveness checks (lines 311-334) run
before either spawn/store, both calls spawn; the run ends with two live
llama-server processes and both calls returning successfully — not the
exactly-one-live-subprocess outcome the specification requires.  The mutex is
released at line 334, so the check and the spawn/store are not one critical
section. -/
theorem c6_double_spawn :
    (supRun [false, true, false, true, false, true, false, true] supInit).live
        = [1, 2]
    ∧ (supRun [false, true, false, true, false, true, false, true] supInit).t0.pc
        = Pc.done (some 1)
    ∧ (supRun [false, true, false, true, false, true, false, true] supInit).t1.pc
        = Pc.done (some 2)
    ∧ (supRun [false, true, false, true, false, true, false, true]
        supInit).live.length ≠ 1 := by
  decide

/-! ### C7: the post-spawn grace re-check -/

/-- C7: on the spawn path (no live process stored, binary and model present,
spawn succeeds), `start_server_process` waits the fixed 1.5-second grace
interval (`graceMillis = 1500`) and re-checks: if the child exited during the
window the call returns the immediate-exit error and the stored handle is
cleared; otherwise it returns the spawned process id (which is also stored). -/
theorem c7_grace_recheck (a : StartArgs) (freshPid : ℕ)
    (hnl : a.handle = none ∨ a.liveAtCheck = false)
    (hb : a.binaryExists = true) (hm : a.modelExists = true)
    (hs : a.spawnOk = true) :
    (a.exitsDuringGrace = true →
      start_server_process a freshPid =
        (none,
         Except.error
           "llama-server process exited immediately. Please verify dependencies and DLLs."))
    ∧ (a.exitsDuringGrace = false →
      start_server_process a freshPid = (some freshPid, Except.ok freshPid))
    ∧ graceMillis = 1500 := by
  have hafter : start_server_process a freshPid = startAfterCheck a freshPid := by
    unfold start_server_process
    cases hh : a.handle with
    | none => rfl
    | some p =>
      rcases hnl with h | h
      · rw [hh] at h; cases h
      · simp [h]
  refine ⟨?_, ?_, rfl⟩
  · intro hex
    rw [hafter]
    unfold startAfterCheck
    simp [hb, hm, hs, hex]
  · intro hex
    rw [hafter]
    unfold startAfterCheck
    simp [hb, hm, hs, hex]

/-- Witness for C7: a concrete child that dies inside the grace window. -/
theorem c7_grace_recheck_witness :
    start_server_process ⟨none, false, true, true, "model.gguf", true, "", true⟩ 7 =
      (none,
       Except.error
         "llama-server process exited immediately. Please verify dependencies and DLLs.") :=
  (c7_grace_recheck ⟨none, false, true, true, "model.gguf", true, "", true⟩ 7
    (Or.inl rfl) rfl rfl rfl).1 rfl

/-! ### C8, C9: download resume and cancellation -/

lemma dlLoop_nil (cancel : ℕ → Bool) (n : ℕ) (fs : DlFs) (e : DlEntry) :
    dlLoop cancel [] n fs e =
      ({ part := none, final := some (fs.part.getD []) },
       { e with status := "done" }) := rfl

lemma dlLoop_cancel_hit (cancel : ℕ → Bool) {n : ℕ} (hc : cancel n = true)
    (c : Except String (List ℕ)) (rest : List (Except String (List ℕ)))
    (fs : DlFs) (e : DlEntry) :
    dlLoop cancel (c :: rest) n fs e =
      ({ fs with part := none }, { e with status := "canceled" }) := by
  rw [dlLoop.eq_def]
  simp [hc]

lemma dlLoop_ok_step (cancel : ℕ → Bool) {n : ℕ} (hc : cancel n = false)
    (data : List ℕ) (rest : List (Except String (List ℕ)))
    (fs : DlFs) (e : DlEntry) :
    dlLoop cancel (Except.ok data :: rest) n fs e =
      dlLoop cancel rest (n + 1) { fs with part := some (fs.part.getD [] ++ data) }
        { e with written := e.written + data.length } := by
  rw [dlLoop.eq_def]
  simp [hc]

lemma dlLoop_total (cancel : ℕ → Bool) : ∀ (chunks : List (Except String (List ℕ)))
    (n : ℕ) (fs : DlFs) (e : DlEntry), ((dlLoop cancel chunks n fs e).2).total = e.total := by
  intro chunks
  induction chunks with
  | nil => intro n fs e; rfl
  | cons c rest ih =>
    intro n fs e
    rw [dlLoop.eq_def]
    by_cases hc : cancel n
    · simp [hc]
    · simp only [hc, Bool.false_eq_true, if_false]
      cases c with
      | ok data => exact ih _ _ _
      | error msg => rfl

lemma dlLoop_all_ok (cancel : ℕ → Bool) (hc : ∀ n, cancel n = false) :
    ∀ (datas : List (List ℕ)) (n : ℕ) (fs : DlFs) (e : DlEntry),
      dlLoop cancel (datas.map Except.ok) n fs e =
        (⟨none, some (fs.part.getD [] ++ datas.flatten)⟩,
         { e with written := e.written + datas.flatten.length, status := "done" }) := by
  intro datas
  induction datas with
  | nil => intro n fs e; simp [dlLoop_nil]
  | cons d rest ih =>
    intro n fs e
    rw [List.map_cons, dlLoop_ok_step cancel (hc n), ih (n + 1)]
    simp [List.append_assoc, Nat.add_assoc]

lemma dlLoop_cancel_at (cancel : ℕ → Bool) :
    ∀ (datas : List (List ℕ)) (n : ℕ) (fs : DlFs) (e : DlEntry)
      (c : Except String (List ℕ)) (rest : List (Except String (List ℕ))),
      (∀ i, i < datas.length → cancel (n + i) = false) →
      cancel (n + datas.length) = true →
      dlLoop cancel (datas.map Except.ok ++ c :: rest) n fs e =
        (⟨none, fs.final⟩,
         { e with written := e.written + datas.flatten.length, status := "canceled" }) := by
  intro datas
  induction datas with
  | nil =>
    intro n fs e c rest _ hflag
    simp only [List.length_nil, Nat.add_zero] at hflag
    rw [List.map_nil, List.nil_append, dlLoop_cancel_hit cancel hflag]
    simp
  | cons d rest' ih =>
    intro n fs e c rest hbefore hflag
    have h0 : cancel n = false := by simpa using hbefore 0 (by simp)
    rw [List.map_cons, List.cons_append, dlLoop_ok_step cancel h0]
    rw [ih (n + 1) _ _ c rest (fun i hi => by
        have hb := hbefore (i + 1) (by simpa using Nat.succ_lt_succ hi)
        have harr : n + (i + 1) = n + 1 + i := by omega
        rwa [harr] at hb)
      (by
        have harr : n + 1 + rest'.length = n + (d :: rest').length := by
          simp [Nat.add_comm, Nat.add_assoc, Nat.add_left_comm]
        rw [harr]; exact hflag)]
    simp [Nat.add_assoc]

lemma download_task_ok (fs : DlFs) (resp : DlResp) (cancel : ℕ → Bool)
    (e0 : DlEntry) (hok : resp.ok = true) :
    download_task fs resp cancel e0 =
      (rangeHdr (resumeLen fs),
       dlLoop cancel resp.chunks 0
         (if resumeLen fs > 0 then fs else { fs with part := some [] })
         { e0 with total := resp.contentLength.map (· + resumeLen fs),
                   written := resumeLen fs }) := by
  unfold download_task
  rw [if_neg (by simp [hok])]

/-- C8: when a non-empty partial file of length `L` exists, the transfer task
of `download_pack` puts a byte-range header starting at `L` on the request,
sets the entry's total to the server-reported remaining content length plus
`L`, starts `written` at `L`, and appends to the partial file rather than
truncating it: an error-free, uncancelled transfer ends with the final file
equal to the old partial content followed by the received bytes. -/
theorem c8_resume (fs : DlFs) (resp : DlResp) (cancel : ℕ → Bool) (e0 : DlEntry)
    (content : List ℕ) (hpart : fs.part = some content) (hL : 0 < content.length)
    (hok : resp.ok = true) :
    (download_task fs resp cancel e0).1 = some content.length
    ∧ (download_task fs resp cancel e0).2.2.total =
        resp.contentLength.map (· + content.length)
    ∧ ((∀ n, cancel n = false) → ∀ datas : List (List ℕ),
        resp.chunks = datas.map Except.ok →
        (download_task fs resp cancel e0).2.1.part = none
        ∧ (download_task fs resp cancel e0).2.1.final =
            some (content ++ datas.flatten)
        ∧ (download_task fs resp cancel e0).2.2.written =
            content.length + datas.flatten.length
        ∧ (download_task fs resp cancel e0).2.2.status = "done") := by
  have hres : resumeLen fs = content.length := by unfold resumeLen; rw [hpart]
  have hpos : 0 < resumeLen fs := hres ▸ hL
  have hfs1 : (if resumeLen fs > 0 then fs else { fs with part := some [] }) = fs :=
    if_pos hpos
  rw [download_task_ok fs resp cancel e0 hok, hfs1]
  refine ⟨?_, ?_, ?_⟩
  · unfold rangeHdr
    rw [if_pos hpos, hres]
  · rw [dlLoop_total]
    simp [hres]
  · intro hcf datas hchunks
    rw [hchunks, dlLoop_all_ok cancel hcf]
    simp [hpart, hres]

/-- Witness for C8: resuming a 1-byte partial file `[7]` with two more bytes
`[8, 9]` arriving. -/
theorem c8_resume_witness :
    (download_task ⟨some [7], none⟩ ⟨true, "", some 3, [Except.ok [8, 9]]⟩
        (fun _ => false) ⟨none, 0, "running", none⟩).1 = some 1
    ∧ (download_task ⟨some [7], none⟩ ⟨true, "", some 3, [Except.ok [8, 9]]⟩
        (fun _ => false) ⟨none, 0, "running", none⟩).2.1.final = some [7, 8, 9] := by
  have h := c8_resume ⟨some [7], none⟩ ⟨true, "", some 3, [Except.ok [8, 9]]⟩
    (fun _ => false) ⟨none, 0, "running", none⟩ [7] rfl (by decide) rfl
  exact ⟨by simpa using h.1, by simpa using (h.2.2 (fun _ => rfl) [[8, 9]] rfl).2.1⟩

/-- C9: the cancel flag is checked before each received chunk is processed;
at the first check where it reads true the partial file is deleted, the entry
status becomes `canceled`, the flagged chunk and everything after it are never
written (written bytes stop at the resume point plus the chunks consumed
before the flag), and nothing is ever placed at the final path. -/
theorem c9_cancel (fs : DlFs) (resp : DlResp) (cancel : ℕ → Bool) (e0 : DlEntry)
    (datas : List (List ℕ)) (c : Except String (List ℕ))
    (rest : List (Except String (List ℕ)))
    (hok : resp.ok = true)
    (hchunks : resp.chunks = datas.map Except.ok ++ c :: rest)
    (hbefore : ∀ i, i < datas.length → cancel i = false)
    (hflag : cancel datas.length = true) :
    (download_task fs resp cancel e0).2.1.part = none
    ∧ (download_task fs resp cancel e0).2.1.final = fs.final
    ∧ (download_task fs resp cancel e0).2.2.status = "canceled"
    ∧ (download_task fs resp cancel e0).2.2.written =
        resumeLen fs + datas.flatten.length := by
  rw [download_task_ok fs resp cancel e0 hok, hchunks]
  rw [dlLoop_cancel_at cancel datas 0 _ _ c rest
    (fun i hi => by simpa using hbefore i hi) (by simpa using hflag)]
  have hfin : (if resumeLen fs > 0 then fs
      else { fs with part := some [] }).final = fs.final := by
    by_cases h : resumeLen fs > 0 <;> simp [h]
  simp [hfin]

/-- Witness for C9: the flag turns true at the second check, after one 2-byte
chunk was written; the partial file is deleted and the final path untouched. -/
theorem c9_cancel_witness :
    (download_task ⟨some [7], some [5]⟩
        ⟨true, "", some 9, [Except.ok [8, 9], Except.ok [1], Except.ok [2]]⟩
        (fun n => n != 0) ⟨none, 0, "running", none⟩).2.1.part = none
    ∧ (download_task ⟨some [7], some [5]⟩
        ⟨true, "", some 9, [Except.ok [8, 9], Except.ok [1], Except.ok [2]]⟩
        (fun n => n != 0) ⟨none, 0, "running", none⟩).2.1.final = some [5]
    ∧ (download_task ⟨some [7], some [5]⟩
        ⟨true, "", some 9, [Except.ok [8, 9], Except.ok [1], Except.ok [2]]⟩
        (fun n => n != 0) ⟨none, 0, "running", none⟩).2.2.written = 3 := by
  have h := c9_cancel ⟨some [7], some [5]⟩
    ⟨true, "", some 9, [Except.ok [8, 9], Except.ok [1], Except.ok [2]]⟩
    (fun n => n != 0) ⟨none, 0, "running", none⟩ [[8, 9]] (Except.ok [1])
    [Except.ok [2]] rfl rfl
    (fun i hi => by
      have h0 : i = 0 := by simpa using Nat.lt_one_iff.mp (by simpa using hi)
      subst h0; decide)
    (by decide)
  exact ⟨h.1, by simpa using h.2.1, by simpa using h.2.2.2⟩

/-! ### C3, C4: the SSE decoder -/

lemma stripDataPfx_dataLine (p : List Char) : stripDataPfx (dataLine p) = some p := by
  unfold stripDataPfx dataLine
  rw [if_pos (List.isPrefixOf_iff_prefix.mpr (List.prefix_append _ _))]
  rw [List.drop_left]

lemma dataLine_ne_nil (p : List Char) : dataLine p ≠ [] := by
  unfold dataLine dataPfx
  simp

lemma splitNl_append (l r : List Char) (h : '\n' ∉ l) :
    splitNl (l ++ '\n' :: r) = some (l, r) := by
  induction l with
  | nil => simp [splitNl]
  | cons c cs ih =>
    simp only [List.mem_cons, not_or] at h
    rw [List.cons_append, splitNl]
    rw [if_neg (Ne.symm h.1), ih h.2]
    rfl

lemma splitNl_nil : splitNl [] = none := rfl

/-- The malformed-payload branch: a payload that is not the terminal sentinel
and fails to parse leaves the state exactly unchanged and does not break. -/
lemma procData_skip (parse : SSEParse) (st : LineState) (json : List Char)
    (hne : json ≠ doneLit) (hp : parse json = none) :
    procData parse st json = (st, false) := by
  unfold procData
  rw [if_neg hne, hp]

/-- A trim-invariant `data: ` line hands its payload to `procData`. -/
lemma procLine_dataLine (parse : SSEParse) (st : LineState) (p : List Char)
    (htrim : trimChars (dataLine p) = dataLine p) :
    procLine parse st (dataLine p) = procData parse st p := by
  unfold procLine
  rw [htrim, if_neg (dataLine_ne_nil p), stripDataPfx_dataLine]

lemma procLine_skip (parse : SSEParse) (st : LineState) (p : List Char)
    (htrim : trimChars (dataLine p) = dataLine p)
    (hne : p ≠ doneLit) (hp : parse p = none) :
    procLine parse st (dataLine p) = (st, false) := by
  rw [procLine_dataLine parse st p htrim]
  exact procData_skip parse st p hne hp

/-- Processing a clean one-choice record line: the fragment is appended to the
accumulator and the line does not break the loop. -/
lemma procLine_record (parse : SSEParse) (st : LineState) (p c : List Char)
    (htrim : trimChars (dataLine p) = dataLine p)
    (hne : p ≠ doneLit)
    (hp : parse p = some ⟨[⟨⟨some c⟩, none⟩]⟩) :
    (procLine parse st (dataLine p)).1.accumulated = st.accumulated ++ c
    ∧ (procLine parse st (dataLine p)).2 = false := by
  rw [procLine_dataLine parse st p htrim]
  unfold procData
  rw [if_neg hne, hp]
  by_cases hc : c = []
  · subst hc; simp
  · simp [hc]

lemma drain_run (parse : SSEParse) :
    ∀ (lines : List (List Char)) (st : LineState) (fuel : ℕ),
      (∀ l ∈ lines, '\n' ∉ l) →
      (∀ l ∈ lines, ∀ s : LineState, (procLine parse s l).2 = false) →
      (linesJoin lines).length < fuel →
      drainLines parse fuel (linesJoin lines) st =
        ([], lines.foldl (fun s l => (procLine parse s l).1) st) := by
  intro lines
  induction lines with
  | nil =>
    intro st fuel _ _ _
    cases fuel with
    | zero => simp [linesJoin, drainLines]
    | succ f => simp [linesJoin, drainLines, splitNl_nil]
  | cons l ls ih =>
    intro st fuel hnl hnb hfuel
    have hjoin : linesJoin (l :: ls) = l ++ '\n' :: linesJoin ls := by
      simp [linesJoin, List.append_assoc]
    rw [hjoin] at hfuel ⊢
    obtain ⟨f, rfl⟩ : ∃ f, fuel = f + 1 := ⟨fuel - 1, by omega⟩
    rw [drainLines]
    rw [splitNl_append _ _ (hnl l (by simp))]
    simp only [hnb l (by simp) st, Bool.false_eq_true, if_false]
    rw [ih _ f (fun x hx => hnl x (by simp [hx]))
      (fun x hx s => hnb x (by simp [hx]) s) (by simp at hfuel ⊢; omega)]
    simp

lemma run_records (parse : SSEParse) :
    ∀ (records : List (List Char × List Char)) (st : LineState),
      (∀ r ∈ records,
        parse r.1 = some ⟨[⟨⟨some r.2⟩, none⟩]⟩ ∧ r.1 ≠ doneLit ∧
        trimChars (dataLine r.1) = dataLine r.1) →
      ((records.map (fun r => dataLine r.1)).foldl
          (fun s l => (procLine parse s l).1) st).accumulated
        = st.accumulated ++ (records.map (fun r => r.2)).flatten := by
  intro records
  induction records with
  | nil => intro st _; simp
  | cons r rs ih =>
    intro st hr
    obtain ⟨hp, hne, htrim⟩ := hr r (by simp)
    rw [List.map_cons, List.foldl_cons]
    rw [ih _ (fun x hx => hr x (by simp [hx]))]
    rw [(procLine_record parse st r.1 r.2 htrim hne hp).1]
    simp [List.append_assoc]

lemma generate_text_decode_single (parse : SSEParse) (chunk : List Char) :
    generate_text_decode parse [chunk] =
      (feedChunk parse [] ⟨[], [], false⟩ chunk).2 := by
  unfold generate_text_decode
  by_cases h : (feedChunk parse [] ⟨[], [], false⟩ chunk).2.finished <;>
    simp [procStream, h]

/-- C3: a malformed data payload is skipped — the decoder state is unchanged
and decoding continues — and a stream consisting of one malformed record
followed by well-formed records accumulates exactly the concatenation of the
valid records' content fragments, in order. -/
theorem c3_malformed_record_skipped :
    (∀ (parse : SSEParse) (st : LineState) (json : List Char),
      json ≠ doneLit → parse json = none → procData parse st json = (st, false))
    ∧ ∀ (parse : SSEParse) (bad : List Char)
        (records : List (List Char × List Char)),
      parse bad = none →
      bad ≠ doneLit →
      trimChars (dataLine bad) = dataLine bad →
      '\n' ∉ dataLine bad →
      (∀ r ∈ records,
        parse r.1 = some ⟨[⟨⟨some r.2⟩, none⟩]⟩ ∧ r.1 ≠ doneLit ∧
        trimChars (dataLine r.1) = dataLine r.1 ∧ '\n' ∉ dataLine r.1) →
      (generate_text_decode parse
          [linesJoin (dataLine bad :: records.map (fun r => dataLine r.1))]).accumulated
        = (records.map (fun r => r.2)).flatten := by
  refine ⟨fun parse st json hne hp => procData_skip parse st json hne hp, ?_⟩
  intro parse bad records hpbad hnebad htrimbad hnlbad hrec
  have hlines : ∀ l ∈ dataLine bad :: records.map (fun r => dataLine r.1), '\n' ∉ l := by
    intro l hl
    rcases List.mem_cons.mp hl with h | h
    · subst h; exact hnlbad
    · obtain ⟨r, hr, rfl⟩ := List.mem_map.mp h
      exact (hrec r hr).2.2.2
  have hnb : ∀ l ∈ dataLine bad :: records.map (fun r => dataLine r.1),
      ∀ s : LineState, (procLine parse s l).2 = false := by
    intro l hl s
    rcases List.mem_cons.mp hl with h | h
    · subst h
      rw [procLine_skip parse s bad htrimbad hnebad hpbad]
    · obtain ⟨r, hr, rfl⟩ := List.mem_map.mp h
      obtain ⟨hp, hne, htrim, _⟩ := hrec r hr
      exact (procLine_record parse s r.1 r.2 htrim hne hp).2
  rw [generate_text_decode_single]
  unfold feedChunk
  rw [List.nil_append, drain_run parse _ _ _ hlines hnb (by omega)]
  dsimp only
  rw [List.foldl_cons, procLine_skip parse _ bad htrimbad hnebad hpbad]
  dsimp only
  rw [run_records parse records _
    (fun r hr => ⟨(hrec r hr).1, (hrec r hr).2.1, (hrec r hr).2.2.1⟩)]
  simp

/-- Witness for C3: the malformed payload `"x"` followed by one valid record
with fragment `"ok"` accumulates exactly `"ok"`. -/
theorem c3_malformed_record_skipped_witness :
    (generate_text_decode
        (fun json => if json = ['g'] then some ⟨[⟨⟨some ['o', 'k']⟩, none⟩]⟩ else none)
        [linesJoin (dataLine ['x'] :: [((['g'] : List Char), (['o', 'k'] : List Char))].map
          (fun r => dataLine r.1))]).accumulated
      = ([((['g'] : List Char), (['o', 'k'] : List Char))].map (fun r => r.2)).flatten := by
  exact c3_malformed_record_skipped.2
    (fun json => if json = ['g'] then some ⟨[⟨⟨some ['o', 'k']⟩, none⟩]⟩ else none)
    ['x'] [((['g'] : List Char), (['o', 'k'] : List Char))]
    (by decide) (by decide) (by decide) (by decide)
    (by
      intro r hr
      simp only [List.mem_singleton] at hr
      subst hr
      exact ⟨by decide, by decide, by decide, by decide⟩)

/-- C4 counterexample: a well-formed delta record with two choices carrying
fragments `"a"` and `"b"`.  The claim says both fragments are appended (so the
accumulator would be `"ab"`) and both are emitted as events; the decoder
appends and emits only the first choice's fragment `"a"`. -/
theorem c4_counterexample :
    (procData twoChoiceParse ⟨[], [], false⟩ ['x']).1.accumulated = ['a']
    ∧ (procData twoChoiceParse ⟨[], [], false⟩ ['x']).1.events = [['a']]
    ∧ specFragments twoChoiceRec = [['a'], ['b']]
    ∧ ¬((procData twoChoiceParse ⟨[], [], false⟩ ['x']).1.accumulated
        = ([] : List Char) ++ (specFragments twoChoiceRec).flatten)
    ∧ ¬((procData twoChoiceParse ⟨[], [], false⟩ ['x']).1.events
        = ([] : List (List Char)) ++ specFragments twoChoiceRec) := by
  decide

/-- C4 (amended): for every well-formed delta record, the decoder reads only
the record's first choice: if that choice carries a nonempty content fragment
it is appended to the accumulator and emitted immediately as one event;
fragments in any later choices are ignored, and an empty or absent first
fragment is neither appended nor emitted. -/
theorem c4_first_choice_only (parse : SSEParse) (st : LineState) (json : List Char)
    (sse : SSEChunk) (hj : json ≠ doneLit) (hp : parse json = some sse) :
    (procData parse st json).1.accumulated = st.accumulated ++ firstFrag sse
    ∧ (procData parse st json).1.events =
        st.events ++ (if firstFrag sse = [] then [] else [firstFrag sse]) := by
  unfold procData firstFrag
  rw [if_neg hj, hp]
  dsimp only
  cases hh : sse.choices.head? with
  | none => simp [hh]
  | some choice =>
    simp only [hh]
    cases hcc : choice.delta.content with
    | none =>
      cases hf : choice.finishReason with
      | none => simp [hcc, hf]
      | some r =>
        simp only [hcc, hf]
        constructor <;> (split <;> simp)
    | some c =>
      by_cases hce : c = []
      · subst hce
        cases hf : choice.finishReason with
        | none => simp [hcc, hf]
        | some r =>
          simp only [hcc, hf]
          constructor <;> (split <;> simp)
      · cases hf : choice.finishReason with
        | none => simp [hcc, hf, hce]
        | some r =>
          simp only [hcc, hf]
          constructor <;> (split <;> simp [hce])

/-- Witness for C4 (amended) at the two-choice record: only `"a"` lands. -/
theorem c4_first_choice_only_witness :
    (procData twoChoiceParse ⟨[], [], false⟩ ['x']).1.accumulated
        = [] ++ firstFrag twoChoiceRec
    ∧ (procData twoChoiceParse ⟨[], [], false⟩ ['x']).1.events
        = [] ++ (if firstFrag twoChoiceRec = [] then [] else [firstFrag twoChoiceRec]) :=
  c4_first_choice_only twoChoiceParse ⟨[], [], false⟩ ['x'] twoChoiceRec
    (by decide) rfl

/-! ### C2, C10: cosine similarity and top-k ranking -/

lemma foldl_map_some (g : ℝ × ℝ → ℝ) (gf : FR × FR → FR)
    (hg : ∀ x y : ℝ, gf (some x, some y) = some (g (x, y))) :
    ∀ (l : List (ℝ × ℝ)) (x : ℝ),
      (l.map (fun p => ((some p.1 : FR), (some p.2 : FR)))).foldl
          (fun acc p => fAdd acc (gf p)) (some x)
        = some (x + (l.map g).sum) := by
  intro l
  induction l with
  | nil => intro x; simp
  | cons p t ih =>
    intro x
    rw [List.map_cons, List.foldl_cons]
    have hstep : fAdd (some x) (gf (some p.1, some p.2)) = some (x + g p) := by
      rw [hg p.1 p.2]
      simp [fAdd, Option.map₂]
    rw [hstep, ih (x + g p)]
    simp [add_assoc]

lemma zip_map_mul (va : List ℝ) : ∀ vb : List ℝ,
    (va.zip vb).map (fun p => p.1 * p.2) = List.zipWith (· * ·) va vb := by
  induction va with
  | nil => intro vb; simp
  | cons a va' ih => intro vb; cases vb <;> simp [ih]

lemma zip_map_fst_sq (va : List ℝ) : ∀ vb : List ℝ, va.length = vb.length →
    (va.zip vb).map (fun p => p.1 * p.1) = va.map (fun x => x * x) := by
  induction va with
  | nil => intro vb _; simp
  | cons a va' ih =>
    intro vb hlen
    cases vb with
    | nil => simp at hlen
    | cons b vb' => simp [ih vb' (by simpa using hlen)]

lemma zip_map_snd_sq (va : List ℝ) : ∀ vb : List ℝ, va.length = vb.length →
    (va.zip vb).map (fun p => p.2 * p.2) = vb.map (fun x => x * x) := by
  induction va with
  | nil =>
    intro vb hlen
    cases vb with
    | nil => simp
    | cons b vb' => simp at hlen
  | cons a va' ih =>
    intro vb hlen
    cases vb with
    | nil => simp at hlen
    | cons b vb' => simp [ih vb' (by simpa using hlen)]

lemma sqSum_nonneg (v : List ℝ) : 0 ≤ (v.map fun x => x * x).sum := by
  apply List.sum_nonneg
  intro x hx
  obtain ⟨y, _, rfl⟩ := List.mem_map.mp hx
  exact mul_self_nonneg y

lemma normS_eq_zero_iff (v : List ℝ) :
    normS v = 0 ↔ (v.map fun x => x * x).sum = 0 := by
  unfold normS
  exact Real.sqrt_eq_zero (sqSum_nonneg v)

/-- The cosine of two equal-length NaN-free vectors: the zero-norm guard
yields 0, and otherwise the value is exactly `dot / (|a| * |b|)`. -/
lemma cosine_finite (va vb : List ℝ) (hlen : va.length = vb.length) :
    ((normS va = 0 ∨ normS vb = 0) →
      cosine (va.map some) (vb.map some) = some 0)
    ∧ (normS va ≠ 0 → normS vb ≠ 0 →
      cosine (va.map some) (vb.map some) =
        some (dotS va vb / (normS va * normS vb))) := by
  have hzip : (va.map some).zip (vb.map some) =
      (va.zip vb).map (fun p => ((some p.1 : FR), (some p.2 : FR))) := by
    rw [List.zip_map]
    apply List.map_congr_left
    intro p _
    cases p
    rfl
  simp only [cosine]
  rw [hzip,
    foldl_map_some (fun p => p.1 * p.2) (fun p => fMul p.1 p.2)
      (fun x y => by simp [fMul, Option.map₂]) (va.zip vb) 0,
    foldl_map_some (fun p => p.1 * p.1) (fun p => fMul p.1 p.1)
      (fun x y => by simp [fMul, Option.map₂]) (va.zip vb) 0,
    foldl_map_some (fun p => p.2 * p.2) (fun p => fMul p.2 p.2)
      (fun x y => by simp [fMul, Option.map₂]) (va.zip vb) 0]
  simp only [zero_add]
  rw [zip_map_fst_sq va vb hlen, zip_map_snd_sq va vb hlen, zip_map_mul va]
  constructor
  · intro h0
    rcases h0 with h | h
    · have hs : (va.map fun x => x * x).sum = 0 := (normS_eq_zero_iff va).mp h
      simp [fIsZero, hs]
    · have hs : (vb.map fun x => x * x).sum = 0 := (normS_eq_zero_iff vb).mp h
      simp [fIsZero, hs]
  · intro h1 h2
    have ha : (va.map fun x => x * x).sum ≠ 0 :=
      fun hh => h1 ((normS_eq_zero_iff va).mpr hh)
    have hb : (vb.map fun x => x * x).sum ≠ 0 :=
      fun hh => h2 ((normS_eq_zero_iff vb).mpr hh)
    rw [if_neg (by simp [fIsZero, ha, hb])]
    have hsa : (0 : ℝ) < Real.sqrt ((va.map fun x => x * x).sum) :=
      Real.sqrt_pos.mpr (lt_of_le_of_ne (sqSum_nonneg va) (Ne.symm ha))
    have hsb : (0 : ℝ) < Real.sqrt ((vb.map fun x => x * x).sum) :=
      Real.sqrt_pos.mpr (lt_of_le_of_ne (sqSum_nonneg vb) (Ne.symm hb))
    have hprod : Real.sqrt ((va.map fun x => x * x).sum) *
        Real.sqrt ((vb.map fun x => x * x).sum) ≠ 0 :=
      ne_of_gt (mul_pos hsa hsb)
    have hdiv : fMul (fSqrt (some ((va.map fun x => x * x).sum)))
        (fSqrt (some ((vb.map fun x => x * x).sum))) =
        some (Real.sqrt ((va.map fun x => x * x).sum) *
          Real.sqrt ((vb.map fun x => x * x).sum)) := by
      simp [fSqrt, fMul, Option.map₂]
    rw [hdiv]
    have hquot : fDiv (some ((List.zipWith (· * ·) va vb).sum))
        (some (Real.sqrt ((va.map fun x => x * x).sum) *
          Real.sqrt ((vb.map fun x => x * x).sum))) =
        some ((List.zipWith (· * ·) va vb).sum /
          (Real.sqrt ((va.map fun x => x * x).sum) *
            Real.sqrt ((vb.map fun x => x * x).sum))) := by
      simp [fDiv, hprod]
    rw [hquot]
    unfold dotS normS
    rfl

lemma orderedInsert_congr {α : Type} (r1 r2 : α → α → Prop)
    [DecidableRel r1] [DecidableRel r2] :
    ∀ (l : List α) (a : α), (∀ b ∈ l, (r1 a b ↔ r2 a b)) →
      List.orderedInsert r1 a l = List.orderedInsert r2 a l := by
  intro l
  induction l with
  | nil => intro a _; rfl
  | cons b t ih =>
    intro a h
    rw [List.orderedInsert, List.orderedInsert]
    by_cases hr : r1 a b
    · rw [if_pos hr, if_pos ((h b (by simp)).mp hr)]
    · rw [if_neg hr, if_neg (fun hh => hr ((h b (by simp)).mpr hh)),
        ih a (fun x hx => h x (by simp [hx]))]

/-- On pairs with a finite (non-NaN) score and a strictly smaller first index,
the Rust comparator relation agrees with the spec's descending-score,
ties-by-ingestion-order relation. -/
lemma rankRel_iff_specRel (a b : ℕ × FR) (x y : ℝ) (ha : a.2 = some x)
    (hb : b.2 = some y) (hidx : a.1 ≤ b.1) : rankRel a b ↔ specRel a b := by
  unfold rankRel specRel fPCmp fVal
  rw [ha, hb]
  simp only [Option.getD_some]
  rcases lt_trichotomy x y with h | h | h
  · have h1 : ¬y < x := lt_asymm h
    rw [if_neg h1, if_pos h]
    simp [h1, h.ne]
  · subst h
    rw [if_neg (lt_irrefl x), if_neg (lt_irrefl x)]
    simp [lt_irrefl, hidx]
  · rw [if_pos h]
    simp [h]

lemma insertionSort_congr_pairs :
    ∀ l : List (ℕ × FR), l.Pairwise (fun p q => p.1 < q.1) →
      (∀ p ∈ l, p.2.isSome) →
      List.insertionSort rankRel l = List.insertionSort specRel l := by
  intro l
  induction l with
  | nil => intro _ _; rfl
  | cons a t ih =>
    intro hpw hsome
    rw [List.insertionSort, List.insertionSort]
    rw [ih (List.pairwise_cons.mp hpw).2 (fun p hp => hsome p (by simp [hp]))]
    apply orderedInsert_congr
    intro b hb
    have hbt : b ∈ t := (List.mem_insertionSort specRel).mp hb
    obtain ⟨x, hx⟩ := Option.isSome_iff_exists.mp (hsome a (by simp))
    obtain ⟨y, hy⟩ := Option.isSome_iff_exists.mp (hsome b (by simp [hbt]))
    exact rankRel_iff_specRel a b x y hx hy
      (le_of_lt ((List.pairwise_cons.mp hpw).1 b hbt))

lemma enum_filter_pairwise (scores : List FR) :
    (scores.enum.filter (fun p => !(fIsNan p.2))).Pairwise
      (fun p q => p.1 < q.1) := by
  apply List.Pairwise.filter
  have h1 : (List.map Prod.fst scores.enum).Pairwise (· < ·) := by
    rw [List.enum_eq_zip_range, List.map_fst_zip _ _ (by simp)]
    exact List.pairwise_lt_range _
  exact List.pairwise_map.mp h1

lemma enum_filter_isSome (scores : List FR) :
    ∀ p ∈ scores.enum.filter (fun p => !(fIsNan p.2)), p.2.isSome := by
  intro p hp
  have h2 := (List.mem_filter.mp hp).2
  cases h : p.2 with
  | some v => rfl
  | none => simp [fIsNan, h] at h2

lemma enum_filter_lt_length (scores : List FR) :
    ∀ p ∈ scores.enum.filter (fun p => !(fIsNan p.2)), p.1 < scores.length := by
  intro p hp
  obtain ⟨i, s⟩ := p
  have h1 := (List.mem_filter.mp hp).1
  rw [List.enum_eq_zip_range] at h1
  exact List.mem_range.mp (List.of_mem_zip h1).1

lemma lookupHits_isSome (chunks : List (List Char)) :
    ∀ l : List (ℕ × FR), (∀ p ∈ l, p.1 < chunks.length) →
      (lookupHits chunks l).isSome := by
  intro l
  induction l with
  | nil => intro _; rfl
  | cons p rest ih =>
    intro h
    rw [lookupHits]
    have hlt := h p (by simp)
    have hget : chunks.get? p.1 = some chunks[p.1] := by
      rw [List.get?_eq_getElem?, List.getElem?_eq_getElem hlt]
    rw [hget]
    simp [ih (fun q hq => h q (by simp [hq]))]

/-- C2: `rag_query` scores every stored embedding against the query vector
with `cosine` — which on equal-length NaN-free vectors equals
`dot(a,b) / (|a| * |b|)` and yields 0 instead of dividing by a zero norm —
discards NaN scores, sorts the remaining (index, score) pairs by descending
score with ties kept in original ingestion order (the code's stable sort
equals the spec-side lexicographic sort `specTopK`), and returns the top `k`
chunk texts with scores; `k = 0`, an empty stored embedding list, and missing
chunk or embedding files all yield the empty result rather than an error. -/
theorem c2_rag_query_cosine_topk :
    (∀ (va vb : List ℝ), va.length = vb.length →
      ((normS va = 0 ∨ normS vb = 0) →
        cosine (va.map some) (vb.map some) = some 0)
      ∧ (normS va ≠ 0 → normS vb ≠ 0 →
        cosine (va.map some) (vb.map some) =
          some (dotS va vb / (normS va * normS vb))))
    ∧ (∀ (scores : List FR) (chunks : List (List Char)) (k : ℕ),
        ragRank scores chunks k = specTopK scores chunks k)
    ∧ (∀ (ef : Option (List (List FR))) (qemb : List FR) (k : ℕ),
        rag_query none ef qemb k = some [])
    ∧ (∀ (cf : Option (List (List Char))) (qemb : List FR) (k : ℕ),
        rag_query cf none qemb k = some [])
    ∧ (∀ (chunks : List (List Char)) (qemb : List FR) (k : ℕ),
        rag_query (some chunks) (some []) qemb k = some [])
    ∧ (∀ (cf : Option (List (List Char))) (ef : Option (List (List FR)))
        (qemb : List FR), rag_query cf ef qemb 0 = some [])
    ∧ (∀ (chunks : List (List Char)) (embeds : List (List FR)) (qemb : List FR)
        (k : ℕ), embeds ≠ [] →
        rag_query (some chunks) (some embeds) qemb k =
          specTopK (embeds.map (fun e => cosine qemb e)) chunks k) := by
  have hsort : ∀ (scores : List FR) (chunks : List (List Char)) (k : ℕ),
      ragRank scores chunks k = specTopK scores chunks k := by
    intro scores chunks k
    simp only [ragRank, specTopK]
    rw [insertionSort_congr_pairs _ (enum_filter_pairwise scores)
      (enum_filter_isSome scores)]
  refine ⟨fun va vb hlen => cosine_finite va vb hlen, hsort, ?_, ?_, ?_, ?_, ?_⟩
  · intro ef qemb k; cases ef <;> rfl
  · intro cf qemb k; cases cf <;> rfl
  · intro chunks qemb k; rfl
  · intro cf ef qemb
    cases cf with
    | none => cases ef <;> rfl
    | some chunks =>
      cases ef with
      | none => rfl
      | some embeds =>
        show (if embeds.isEmpty then some [] else
          ragRank (embeds.map fun e => cosine qemb e) chunks 0) = some []
        by_cases h : embeds.isEmpty
        · rw [if_pos h]
        · rw [if_neg h]
          simp [ragRank, lookupHits]
  · intro chunks embeds qemb k hne
    cases embeds with
    | nil => exact absurd rfl hne
    | cons e es =>
      show (if (e :: es).isEmpty then some [] else
        ragRank ((e :: es).map fun x => cosine qemb x) chunks k) = _
      rw [if_neg (by simp)]
      exact hsort _ chunks k

/-- Witness for C2 at the one-dimensional vectors `[1]`, `[1]`: the norm is
nonzero and the cosine is the ratio the claim gives. -/
theorem c2_rag_query_cosine_topk_witness :
    normS [(1 : ℝ)] ≠ 0 ∧
    cosine ([(1 : ℝ)].map some) ([(1 : ℝ)].map some) =
      some (dotS [1] [1] / (normS [1] * normS [1])) := by
  have hn : normS [(1 : ℝ)] ≠ 0 := by unfold normS; simp
  exact ⟨hn, ((c2_rag_query_cosine_topk.1 [1] [1] rfl).2) hn hn⟩

/-- C10: `rag_query` reads `chunks[i]` with no bounds check.  Whenever every
stored embedding index is below the stored chunk count the query is total
(no panic), and on a dataset whose `embeddings.json` has more entries than
`chunks.json` — here one embedding against an empty chunk list — the lookup
goes out of bounds (the modelled panic `none`). -/
theorem c10_unchecked_chunk_index :
    (∀ (chunks : List (List Char)) (embeds : List (List FR)) (qemb : List FR)
      (k : ℕ), embeds.length ≤ chunks.length →
      (rag_query (some chunks) (some embeds) qemb k).isSome)
    ∧ rag_query (some []) (some [[some 1]]) [some 1] 1 = none := by
  constructor
  · intro chunks embeds qemb k hle
    cases embeds with
    | nil => rfl
    | cons e es =>
      show (if (e :: es).isEmpty then some [] else
        ragRank ((e :: es).map fun x => cosine qemb x) chunks k).isSome
      rw [if_neg (by simp)]
      simp only [ragRank]
      apply lookupHits_isSome
      intro p hp
      have hmem : p ∈ (((e :: es).map fun x => cosine qemb x).enum.filter
          (fun p => !(fIsNan p.2))) :=
        (List.mem_insertionSort rankRel).mp (List.mem_of_mem_take hp)
      have hlt := enum_filter_lt_length _ p hmem
      calc p.1 < ((e :: es).map fun x => cosine qemb x).length := hlt
        _ = (e :: es).length := by simp
        _ ≤ chunks.length := hle
  · have hn : normS [(1 : ℝ)] ≠ 0 := by unfold normS; simp
    have hc := (cosine_finite [1] [1] rfl).2 hn hn
    simp only [List.map_cons, List.map_nil] at hc
    have hcos : cosine [(some 1 : FR)] [some 1] = some 1 := by
      rw [hc]
      have h1 : dotS [1] [1] = 1 := by unfold dotS; simp
      have h2 : normS [(1 : ℝ)] = 1 := by unfold normS; simp
      rw [h1, h2]
      norm_num
    show (if ([[(some 1 : FR)]] : List (List FR)).isEmpty then some [] else
      ragRank ([[(some 1 : FR)]].map fun e => cosine [some 1] e) [] 1) = none
    rw [if_neg (by simp)]
    simp only [List.map_cons, List.map_nil]
    rw [hcos]
    simp only [ragRank]
    simp [List.enum, List.enumFrom, fIsNan, List.insertionSort,
      List.orderedInsert, lookupHits]

/-- Witness for C10: with as many chunks as embeddings the query is total. -/
theorem c10_unchecked_chunk_index_witness :
    (rag_query (some [['a']]) (some [[some 1]]) [some 1] 1).isSome :=
  c10_unchecked_chunk_index.1 [['a']] [[some 1]] [some 1] 1 (by decide)
